import Mathlib

/-!
# Verification of the goslugify slug-generation library

This file gives a shallow embedding of the goslugify library (`slug.go`)
into Lean 4 and proves properties of the embedded definitions.

Strings are modelled as lists of Unicode code points (`List Char`), which
matches the library's documented contract that all lengths and
classifications are in code points ("runes"), never bytes.  Go `string`
values always traverse as sequences of runes in the relevant code paths
(`for _, r := range s`, `[]rune(s)`, `utf8.RuneCountInString`), so this
representation is faithful for every operation embedded here.

External collaborators (the `golang.org/x/text/unicode/norm` package and
the `unicode`/`strings` standard-library services) are outside this
repository; the specification declares them black boxes.  They are
modelled by an abstract `UnicodeService` record, plus one concrete
instance used for concrete end-to-end computations on ASCII inputs.
-/

set_option maxHeartbeats 1000000

namespace Goslugify

/-- A Go string, viewed as its sequence of Unicode code points. -/
abbrev GoStr := List Char

/-- Convert a Lean string literal to the `GoStr` model. -/
def str (s : String) : GoStr := s.data

/-- A `StringModifierFunc` from `slug.go`: any function from string to string. -/
abbrev StringModifierFunc := GoStr → GoStr

/-!
## Replace maps and merging (`slug.go`: `StringReplaceMap`, `MergeStringReplaceMaps`)

A Go `map[string]string` is modelled as an association list (a snapshot of
the map's key/value pairs; Go guarantees key uniqueness, but none of the
theorems below need that assumption).  Lookup returns the value of the
first matching key.
-/

/-- A `StringReplaceMap`: keys are substituted by their values. -/
abbrev StringReplaceMap := List (GoStr × GoStr)

/-- Map lookup: the value bound to `k`, if any. -/
def mapLookup (k : GoStr) : StringReplaceMap → Option GoStr
  | [] => none
  | (k2, v) :: rest => if k2 = k then some v else mapLookup k rest

/-- One step of `MergeStringReplaceMaps`: insert every entry of `m` into
`res`, skipping keys already present (`if _, has := res[key]; !has`). -/
def mergeInsert (res : StringReplaceMap) (m : StringReplaceMap) : StringReplaceMap :=
  m.foldl (fun acc kv => if (mapLookup kv.1 acc).isSome then acc else acc ++ [kv]) res

/-- `MergeStringReplaceMaps` from `slug.go`: merge maps in order; the first
occurrence of a key wins, later maps can only add new keys. -/
def MergeStringReplaceMaps (maps : List StringReplaceMap) : StringReplaceMap :=
  maps.foldl mergeInsert []

/-- Written from the spec's words (§3): "first map wins — when the same key
appears in more than one map in the input order, only the value from the
earliest map is kept". -/
def firstMapWins (maps : List StringReplaceMap) (k : GoStr) : Option GoStr :=
  match maps with
  | [] => none
  | m :: ms => (mapLookup k m).orElse (fun _ => firstMapWins ms k)

theorem mapLookup_append (k : GoStr) (l₁ l₂ : StringReplaceMap) :
    mapLookup k (l₁ ++ l₂) = (mapLookup k l₁).orElse (fun _ => mapLookup k l₂) := by
  induction l₁ with
  | nil => simp [mapLookup]
  | cons kv rest ih =>
    by_cases h : kv.1 = k
    · simp [mapLookup, h, Option.orElse]
    · simp [mapLookup, h, ih]

theorem mapLookup_mergeInsert (res m : StringReplaceMap) (k : GoStr) :
    mapLookup k (mergeInsert res m)
      = (mapLookup k res).orElse (fun _ => mapLookup k m) := by
  induction m generalizing res with
  | nil => simp [mergeInsert, mapLookup]
  | cons kv rest ih =>
    show mapLookup k (mergeInsert (if (mapLookup kv.1 res).isSome then res else res ++ [kv]) rest) = _
    by_cases hkv : (mapLookup kv.1 res).isSome
    · rw [if_pos hkv, ih]
      by_cases hk : kv.1 = k
      · subst hk
        obtain ⟨v, hv⟩ := Option.isSome_iff_exists.mp hkv
        simp [hv, mapLookup, Option.orElse]
      · simp [mapLookup, hk]
    · rw [if_neg hkv, ih, mapLookup_append]
      by_cases hk : kv.1 = k
      · subst hk
        have : mapLookup kv.1 res = none := Option.not_isSome_iff_eq_none.mp hkv
        simp [this, mapLookup, Option.orElse]
      · simp [mapLookup, hk]

theorem mergeMaps_lookup (maps : List StringReplaceMap) (k : GoStr) :
    mapLookup k (MergeStringReplaceMaps maps) = firstMapWins maps k := by
  suffices h : ∀ (res : StringReplaceMap),
      mapLookup k (maps.foldl mergeInsert res)
        = (mapLookup k res).orElse (fun _ => firstMapWins maps k) by
    have := h []
    simpa [MergeStringReplaceMaps, mapLookup, Option.orElse] using this
  induction maps with
  | nil =>
    intro res
    cases h : mapLookup k res <;> simp [h, firstMapWins, Option.orElse]
  | cons m ms ih =>
    intro res
    show mapLookup k (ms.foldl mergeInsert (mergeInsert res m)) = _
    rw [ih, mapLookup_mergeInsert]
    cases h1 : mapLookup k res <;> cases h2 : mapLookup k m <;>
      simp [h1, h2, firstMapWins, Option.orElse]

/-- **C6** — For every ordered sequence of replacement maps,
`MergeStringReplaceMaps` binds each key to the value from the earliest map
of the sequence containing that key, and later maps only contribute keys
not already present; in particular merging `[{"a":"b"}]` with
`[{"a":"X","b":"c"}]` yields `{"a":"b","b":"c"}`. -/
theorem C6_merge_first_wins :
    (∀ (maps : List StringReplaceMap) (k : GoStr),
        mapLookup k (MergeStringReplaceMaps maps) = firstMapWins maps k)
    ∧ MergeStringReplaceMaps [[(str "a", str "b")], [(str "a", str "X"), (str "b", str "c")]]
        = [(str "a", str "b"), (str "b", str "c")] := by
  refine ⟨mergeMaps_lookup, ?_⟩
  decide

/-!
## Rune handle functions (`slug.go`: `RuneHandleFunc`, `ChainRuneHandleFuncs`,
`RuneHandleFuncToStringModifierFunc`)
-/

/-- A `RuneHandleFunc`: for one code point, `(true, repl)` means "replace by
`repl`", `(false, "")` means "not interested". -/
abbrev RuneHandleFunc := Char → Bool × GoStr

/-- `ChainRuneHandleFuncs` from `slug.go`: evaluate the functions in order;
the first one that handles the rune wins; `(false, "")` if none does. -/
def ChainRuneHandleFuncs : List RuneHandleFunc → RuneHandleFunc
  | [] => fun _ => (false, [])
  | f :: rest => fun r =>
      if (f r).1 then (true, (f r).2) else ChainRuneHandleFuncs rest r

/-- The loop body of `RuneHandleFuncToStringModifierFunc`: iterate the code
points, appending the replacement when the handler accepts and dropping the
code point otherwise. -/
def runesApply (h : RuneHandleFunc) : GoStr → GoStr
  | [] => []
  | r :: rest => (if (h r).1 then (h r).2 else []) ++ runesApply h rest

/-- `RuneHandleFuncToStringModifierFunc` from `slug.go`. -/
def RuneHandleFuncToStringModifierFunc (h : RuneHandleFunc) : StringModifierFunc :=
  fun in_ => runesApply h in_

/-- Written from the spec's words (§4.2): "evaluates rules in order, returns
the first `(true, replacement)`" — the replacement produced by the first
rule in the list that accepts the code point, if any. -/
def firstAcceptingReplacement (rules : List RuneHandleFunc) (r : Char) : Option GoStr :=
  match rules with
  | [] => none
  | f :: rest => if (f r).1 then some (f r).2 else firstAcceptingReplacement rest r

/-- Written from the spec's words (§4.2): concatenation, over the input's
code points in order, of the first accepting rule's replacement; code
points accepted by no rule are dropped. -/
def specChainTransform (rules : List RuneHandleFunc) (s : GoStr) : GoStr :=
  (s.map (fun r => (firstAcceptingReplacement rules r).getD [])).flatten

theorem chain_fst_eq (rules : List RuneHandleFunc) (r : Char) :
    (if (ChainRuneHandleFuncs rules r).1 then (ChainRuneHandleFuncs rules r).2 else [])
      = (firstAcceptingReplacement rules r).getD [] := by
  induction rules with
  | nil => simp [ChainRuneHandleFuncs, firstAcceptingReplacement]
  | cons f rest ih =>
    by_cases h : (f r).1
    · simp [ChainRuneHandleFuncs, firstAcceptingReplacement, h]
    · simp only [ChainRuneHandleFuncs, firstAcceptingReplacement, h,
        if_false, Bool.false_eq_true]
      exact ih

theorem chainTransform_eq_spec (rules : List RuneHandleFunc) (s : GoStr) :
    RuneHandleFuncToStringModifierFunc (ChainRuneHandleFuncs rules) s
      = specChainTransform rules s := by
  induction s with
  | nil => rfl
  | cons r rest ih =>
    show (if (ChainRuneHandleFuncs rules r).1 then (ChainRuneHandleFuncs rules r).2 else [])
        ++ runesApply (ChainRuneHandleFuncs rules) rest = _
    rw [chain_fst_eq]
    have ih' : runesApply (ChainRuneHandleFuncs rules) rest = specChainTransform rules rest := ih
    rw [ih']
    simp [specChainTransform]

theorem chain_none_accepts (rules : List RuneHandleFunc) (r : Char)
    (h : ∀ f ∈ rules, (f r).1 = false) :
    ChainRuneHandleFuncs rules r = (false, []) := by
  induction rules with
  | nil => rfl
  | cons f rest ih =>
    have hf : (f r).1 = false := h f (List.mem_cons_self f rest)
    show (if (f r).1 then (true, (f r).2) else ChainRuneHandleFuncs rest r) = _
    rw [hf]
    simp only [if_false, Bool.false_eq_true]
    exact ih fun g hg => h g (List.mem_cons_of_mem f hg)

/-- **C7** — The transform compiled from a chained rule list equals the
concatenation, over the input's code points in order, of the replacement of
the first rule accepting each code point (unaccepted code points dropped);
and the chained rule returns `(false, "")` on a code point no rule accepts. -/
theorem C7_chain_first_match_wins :
    (∀ (rules : List RuneHandleFunc) (s : GoStr),
        RuneHandleFuncToStringModifierFunc (ChainRuneHandleFuncs rules) s
          = specChainTransform rules s)
    ∧ (∀ (rules : List RuneHandleFunc) (r : Char),
        (∀ f ∈ rules, (f r).1 = false) → ChainRuneHandleFuncs rules r = (false, [])) :=
  ⟨chainTransform_eq_spec, chain_none_accepts⟩

/-- `TranslateUmlaut` from `slug.go`: the fixed umlaut / sharp-s table. -/
def TranslateUmlaut (r : Char) : Bool × GoStr :=
  if r = 'Ö' then (true, str "Oe")
  else if r = 'ö' then (true, str "oe")
  else if r = 'Ä' then (true, str "Ae")
  else if r = 'ä' then (true, str "ae")
  else if r = 'Ü' then (true, str "Ue")
  else if r = 'ü' then (true, str "ue")
  else if r = 'ß' ∨ r = 'ẞ' then (true, str "ss")
  else (false, [])

/-- Witness for C7: the chain over the umlaut table alone returns
`(false, "")` on `'x'`, which no rule accepts, and the compiled transform
agrees with the specification transform on a concrete input. -/
theorem C7_chain_first_match_wins_witness :
    RuneHandleFuncToStringModifierFunc (ChainRuneHandleFuncs [TranslateUmlaut]) (str "äx")
      = specChainTransform [TranslateUmlaut] (str "äx")
    ∧ ChainRuneHandleFuncs [TranslateUmlaut] 'x' = (false, []) := by
  refine ⟨C7_chain_first_match_wins.1 [TranslateUmlaut] (str "äx"),
    C7_chain_first_match_wins.2 [TranslateUmlaut] 'x' ?_⟩
  intro f hf
  have : f = TranslateUmlaut := by simpa using hf
  subst this
  decide

/-!
## Duplicate-separator collapse (`slug.go`: `NewReplaceMultiOccurrencesFunc`)
-/

/-- The loop of `NewReplaceMultiOccurrencesFunc`: `isLast` is the
`isLastInRune` flag of the Go code. -/
def rmoLoop (c : Char) : Bool → GoStr → GoStr
  | _, [] => []
  | isLast, r :: rest =>
      if r = c then
        (if isLast then rmoLoop c true rest else r :: rmoLoop c true rest)
      else
        r :: rmoLoop c false rest

/-- `NewReplaceMultiOccurrencesFunc` from `slug.go`: replace every maximal
run of the code point `c` by a single occurrence. -/
def NewReplaceMultiOccurrencesFunc (c : Char) : StringModifierFunc :=
  fun s => rmoLoop c false s

theorem rmoLoop_idem (c : Char) (s : GoStr) :
    ∀ b : Bool, rmoLoop c b (rmoLoop c b s) = rmoLoop c b s := by
  induction s with
  | nil => intro b; rfl
  | cons r rest ih =>
    intro b
    by_cases hr : r = c
    · subst hr
      cases b with
      | true => simpa [rmoLoop] using ih true
      | false => simpa [rmoLoop] using ih true
    · simpa [rmoLoop, hr] using ih false

/-- **C9** — For every separator rune `c`, the duplicate-separator collapse
transform `NewReplaceMultiOccurrencesFunc c` is idempotent. -/
theorem C9_collapse_idempotent (c : Char) (s : GoStr) :
    NewReplaceMultiOccurrencesFunc c (NewReplaceMultiOccurrencesFunc c s)
      = NewReplaceMultiOccurrencesFunc c s :=
  rmoLoop_idem c s false

/-!
## Splitting on a separator (Go standard library `strings.Split`)

`strings.Split` is external standard-library code; it splits around the
leftmost non-overlapping occurrences of a non-empty separator, and splits
into single code points when the separator is empty (yielding `[]` on empty
input, and `[""]` for empty input with a non-empty separator).  `breakOn`
finds the leftmost occurrence; `splitFuel` uses structural fuel (any fuel
larger than the input length computes the split, see `splitFuel_congr`) so
that the definition stays kernel-computable.
-/

/-- Leftmost occurrence of `sep`: `some (a, b)` with the input equal to
`a ++ sep ++ b` and `a` minimal, or `none` if `sep` does not occur. -/
def breakOn (sep : GoStr) : GoStr → Option (GoStr × GoStr)
  | [] => if sep = [] then some ([], []) else none
  | c :: rest =>
      if sep.isPrefixOf (c :: rest) then some ([], (c :: rest).drop sep.length)
      else (breakOn sep rest).map fun p => (c :: p.1, p.2)

/-- Fuel-driven splitting loop around occurrences of `sep`. -/
def splitFuel (sep : GoStr) : Nat → GoStr → List GoStr
  | 0, s => [s]
  | fuel + 1, s =>
      match breakOn sep s with
      | none => [s]
      | some p => p.1 :: splitFuel sep fuel p.2

/-- `strings.Split` at the code-point level. -/
def splitGo (sep s : GoStr) : List GoStr :=
  if sep = [] then s.map (fun c => [c]) else splitFuel sep (s.length + 1) s

theorem breakOn_decomp (sep : GoStr) :
    ∀ (s a b : GoStr), breakOn sep s = some (a, b) → s = a ++ sep ++ b := by
  intro s
  induction s with
  | nil =>
    intro a b h
    by_cases hsep : sep = []
    · simp [breakOn, hsep] at h
      obtain ⟨h1, h2⟩ := h
      subst h1; subst h2
      simp [hsep]
    · simp [breakOn, hsep] at h
  | cons c rest ih =>
    intro a b h
    by_cases hpre : sep.isPrefixOf (c :: rest)
    · simp only [breakOn, hpre, if_true] at h
      obtain ⟨t, ht⟩ := List.isPrefixOf_iff_prefix.mp hpre
      injection h with h
      injection h with h1 h2
      subst h1
      rw [← ht] at h2 ⊢
      rw [List.drop_left] at h2
      simp [h2]
    · simp only [breakOn, hpre, if_false] at h
      match hb : breakOn sep rest with
      | none => rw [hb] at h; simp at h
      | some (a', b') =>
        rw [hb] at h
        simp at h
        obtain ⟨h1, h2⟩ := h
        have := ih a' b' hb
        subst h1 h2
        simp [this]

theorem breakOn_snd_lt (sep : GoStr) (hsep : sep ≠ []) (s a b : GoStr)
    (h : breakOn sep s = some (a, b)) : b.length < s.length := by
  have hd := breakOn_decomp sep s a b h
  have : 0 < sep.length := List.length_pos.mpr hsep
  rw [hd]
  simp [List.length_append]
  omega

theorem splitFuel_congr (sep : GoStr) (hsep : sep ≠ []) :
    ∀ (f1 : Nat), ∀ (f2 : Nat) (s : GoStr), s.length < f1 → s.length < f2 →
      splitFuel sep f1 s = splitFuel sep f2 s := by
  intro f1
  induction f1 with
  | zero => intro f2 s h1; omega
  | succ f1 ih =>
    intro f2 s h1 h2
    match f2 with
    | 0 => omega
    | f2 + 1 =>
      show (match breakOn sep s with
            | none => [s]
            | some p => p.1 :: splitFuel sep f1 p.2) = (match breakOn sep s with
            | none => [s]
            | some p => p.1 :: splitFuel sep f2 p.2)
      match hb : breakOn sep s with
      | none => rfl
      | some (a, b) =>
        have hlt := breakOn_snd_lt sep hsep s a b hb
        simp only []
        rw [ih f2 b (by omega) (by omega)]

theorem splitGo_of_breakOn_none (sep s : GoStr) (hsep : sep ≠ [])
    (h : breakOn sep s = none) : splitGo sep s = [s] := by
  simp only [splitGo, hsep, if_false]
  show (match breakOn sep s with
        | none => [s]
        | some p => p.1 :: splitFuel sep s.length p.2) = [s]
  rw [h]

theorem splitGo_of_breakOn_some (sep s a b : GoStr) (hsep : sep ≠ [])
    (h : breakOn sep s = some (a, b)) : splitGo sep s = a :: splitGo sep b := by
  have hlt := breakOn_snd_lt sep hsep s a b h
  simp only [splitGo, hsep, if_false]
  show (match breakOn sep s with
        | none => [s]
        | some p => p.1 :: splitFuel sep s.length p.2) = _
  rw [h]
  simp only []
  rw [splitFuel_congr sep hsep s.length (b.length + 1) b (by omega) (by omega)]

theorem splitGo_ne_nil (sep s : GoStr) (hs : s ≠ []) : splitGo sep s ≠ [] := by
  by_cases hsep : sep = []
  · subst hsep
    simp [splitGo]
    exact hs
  · match hb : breakOn sep s with
    | none => rw [splitGo_of_breakOn_none sep s hsep hb]; simp
    | some (a, b) => rw [splitGo_of_breakOn_some sep s a b hsep hb]; simp

/-!
## Word-boundary truncation (`slug.go`: `NewTruncateFunc`)
-/

/-- The word-appending loop of `NewTruncateFunc` (`buf` is `acc`,
`currentLen` tracks the code-point count written so far; the loop `break`s
at the first word that would overflow). -/
def truncLoop (maxLength : Nat) (sep : GoStr) (sepLen : Nat) :
    List GoStr → GoStr → Nat → GoStr
  | [], acc, _ => acc
  | w :: ws, acc, currentLen =>
      if currentLen + sepLen + w.length > maxLength then acc
      else truncLoop maxLength sep sepLen ws (acc ++ sep ++ w)
        (currentLen + sepLen + w.length)

/-- `NewTruncateFunc` from `slug.go`: truncate to at most `maxLength` code
points, only taking whole words except that a too-long first word is cut. -/
def NewTruncateFunc (maxLength : Int) (wordSep : GoStr) : StringModifierFunc :=
  fun in_ =>
    if maxLength < 0 then in_
    else if in_ = [] then in_
    else
      let split := splitGo wordSep in_
      let firstRunes := split.headD []
      if (firstRunes.length : Int) ≥ maxLength then firstRunes.take maxLength.toNat
      else truncLoop maxLength.toNat wordSep wordSep.length split.tail
        firstRunes firstRunes.length

/-- Written from the spec's words (§4.3): append whole words, each preceded
by the separator, as long as the cumulative code-point length (including
separators) does not exceed `maxLength`; the first word that would
overflow is omitted entirely, along with all following words. -/
def specAppendWords (maxLength : Nat) (sep : GoStr) :
    List GoStr → Nat → GoStr
  | [], _ => []
  | w :: ws, len =>
      if len + sep.length + w.length ≤ maxLength
      then sep ++ w ++ specAppendWords maxLength sep ws (len + sep.length + w.length)
      else []

/-- Written from the spec's words (§4.3): split the input on the separator;
if the first word alone is at or above the max length, return exactly the
first `maxLength` code points of that first word; otherwise append whole
words under the cumulative bound. -/
def truncateSpec (maxLength : Nat) (sep : GoStr) (s : GoStr) : GoStr :=
  match splitGo sep s with
  | [] => []
  | first :: rest =>
      if maxLength ≤ first.length then first.take maxLength
      else first ++ specAppendWords maxLength sep rest first.length

theorem truncLoop_eq_spec (n : Nat) (sep : GoStr) :
    ∀ (ws : List GoStr) (acc : GoStr) (len : Nat),
      truncLoop n sep sep.length ws acc len = acc ++ specAppendWords n sep ws len := by
  intro ws
  induction ws with
  | nil => intro acc len; simp [truncLoop, specAppendWords]
  | cons w ws ih =>
    intro acc len
    by_cases h : len + sep.length + w.length ≤ n
    · have h' : ¬ len + sep.length + w.length > n := by omega
      simp only [truncLoop, specAppendWords, h, if_true, h', if_false]
      rw [ih]
      simp
    · have h' : len + sep.length + w.length > n := by omega
      simp only [truncLoop, specAppendWords, h, h', if_true, if_false]
      simp

theorem truncateSpec_nil (n : Nat) (sep : GoStr) : truncateSpec n sep [] = [] := by
  by_cases hsep : sep = []
  · subst hsep; rfl
  · have : breakOn sep [] = none := by simp [breakOn, hsep]
    rw [truncateSpec, splitGo_of_breakOn_none sep [] hsep this]
    by_cases hn : n ≤ ([] : GoStr).length <;> simp [hn, specAppendWords]

theorem trunc_eq_spec (n : Nat) (sep s : GoStr) :
    NewTruncateFunc (n : Int) sep s = truncateSpec n sep s := by
  have hneg : ¬ ((n : Int) < 0) := by omega
  by_cases hs : s = []
  · subst hs
    simp only [NewTruncateFunc, hneg, if_false, if_true]
    exact (truncateSpec_nil n sep).symm
  · obtain ⟨first, rest, hsplit⟩ : ∃ first rest, splitGo sep s = first :: rest := by
      match h : splitGo sep s with
      | [] => exact absurd h (splitGo_ne_nil sep s hs)
      | first :: rest => exact ⟨first, rest, rfl⟩
    simp only [NewTruncateFunc, hneg, if_false, hs, hsplit, truncateSpec,
      List.headD_cons, List.tail_cons]
    by_cases hlen : n ≤ first.length
    · have : (first.length : Int) ≥ (n : Int) := by exact_mod_cast hlen
      simp only [this, if_true, hlen, Int.toNat_ofNat]
    · have : ¬ ((first.length : Int) ≥ (n : Int)) := by exact_mod_cast hlen
      simp only [this, if_false, hlen, Int.toNat_ofNat]
      exact truncLoop_eq_spec n sep rest first first.length

/-- **C3** — For every `maxLength ≥ 0`, separator and input, the truncation
transform splits the input on the separator, hard-cuts the first word to
`maxLength` code points when it is already at or above `maxLength`, and
otherwise greedily appends whole separator-preceded words within the
cumulative code-point bound, dropping the first overflowing word and all
following ones; in particular `truncate(5, "-")("foobarbaz") = "fooba"`. -/
theorem C3_truncate_spec :
    (∀ (n : Nat) (sep s : GoStr),
        NewTruncateFunc (n : Int) sep s = truncateSpec n sep s)
    ∧ NewTruncateFunc 5 (str "-") (str "foobarbaz") = str "fooba" := by
  refine ⟨trunc_eq_spec, ?_⟩
  decide

theorem specAppendWords_len (n : Nat) (sep : GoStr) :
    ∀ (ws : List GoStr) (len : Nat), len ≤ n →
      len + (specAppendWords n sep ws len).length ≤ n := by
  intro ws
  induction ws with
  | nil => intro len h; simpa [specAppendWords]
  | cons w ws ih =>
    intro len h
    by_cases hw : len + sep.length + w.length ≤ n
    · have := ih (len + sep.length + w.length) hw
      simp only [specAppendWords, hw, if_true, List.length_append]
      omega
    · simp only [specAppendWords, hw, if_false]
      simpa

theorem truncateSpec_len (n : Nat) (sep s : GoStr) :
    (truncateSpec n sep s).length ≤ n := by
  rw [truncateSpec]
  match splitGo sep s with
  | [] => simp
  | first :: rest =>
    by_cases hlen : n ≤ first.length
    · simp [hlen]
    · have := specAppendWords_len n sep rest first.length (by omega)
      simp only [hlen, if_false, List.length_append]
      omega

/-- **C4** — For every `maxLength ≥ 0`, every separator string (including
empty or multi-code-point ones) and every input, the output of
`NewTruncateFunc` contains at most `maxLength` code points (`GoStr` length
is the code-point count, never bytes). -/
theorem C4_truncate_bound (n : Nat) (sep s : GoStr) :
    (NewTruncateFunc (n : Int) sep s).length ≤ n := by
  rw [trunc_eq_spec]
  exact truncateSpec_len n sep s

/-!
## Whole-word replacement (`slug.go`: `WordReplacer.Modify`)
-/

/-- Join words with the separator: the Go loop writes the first word bare
and prefixes every later word with the separator. -/
def wordJoin (sep : GoStr) : List GoStr → GoStr
  | [] => []
  | w :: ws => w ++ (ws.map fun x => sep ++ x).flatten

/-- `WordReplacer.Modify` from `slug.go`: split on the word separator,
replace each word that is a key of the map by its value, rejoin. -/
def WordReplacerModify (wordMap : StringReplaceMap) (wordSeparator : GoStr) :
    StringModifierFunc :=
  fun in_ =>
    wordJoin wordSeparator
      ((splitGo wordSeparator in_).map fun w => (mapLookup w wordMap).getD w)

/-- **C5 counterexample** — the claim "for every whole-word replacement map
and every non-empty separator, `Modify` maps the empty input to the empty
output" is false: `strings.Split("", sep)` yields one empty word, which is
looked up in the map; the map `{"": "x"}` with separator `"-"` makes
`Modify("")` return `"x"`. -/
theorem C5_empty_word_counterexample :
    ¬ (∀ (m : StringReplaceMap) (sep : GoStr), sep ≠ [] →
        WordReplacerModify m sep [] = []) := by
  intro h
  have := h [([], str "x")] (str "-") (by decide)
  revert this
  decide

theorem wordReplacer_empty (m : StringReplaceMap) (sep : GoStr) (hsep : sep ≠ [])
    (hm : mapLookup [] m = none ∨ mapLookup [] m = some []) :
    WordReplacerModify m sep [] = [] := by
  have hb : breakOn sep [] = none := by simp [breakOn, hsep]
  rw [WordReplacerModify, splitGo_of_breakOn_none sep [] hsep hb]
  rcases hm with h | h <;> simp [wordJoin, h]

/-- **C5 (amended)** — For every whole-word replacement map whose entry at
the empty-string key is absent or empty, and every non-empty separator,
`WordReplacer.Modify` maps the empty input string to the empty output. -/
theorem C5_empty_input_amended (m : StringReplaceMap) (sep : GoStr)
    (hsep : sep ≠ [])
    (hm : mapLookup [] m = none ∨ mapLookup [] m = some []) :
    WordReplacerModify m sep [] = [] :=
  wordReplacer_empty m sep hsep hm

/-- Witness for the amended C5 at a concrete map and separator. -/
theorem C5_empty_input_amended_witness :
    WordReplacerModify [(str "a", str "b")] (str "-") [] = [] :=
  C5_empty_input_amended [(str "a", str "b")] (str "-") (by decide)
    (Or.inl (by decide))

/-!
## The slug generator and its derivation operations (`slug.go`:
`SlugGenerator`, `WithPreProcessor`, `WithProcessor`, `WithFinalizer`)
-/

/-- `ChainStringModifierFuncs` from `slug.go`: apply all modifiers in
order. -/
def ChainStringModifierFuncs (funcs : List StringModifierFunc) : StringModifierFunc :=
  fun in_ => funcs.foldl (fun acc f => f acc) in_

/-- `SlugGenerator` from `slug.go`: the three pipeline phases. -/
structure SlugGenerator where
  PreProcessor : StringModifierFunc
  Processor : StringModifierFunc
  Finalizer : StringModifierFunc

/-- `SlugGenerator.GenerateSlug`: apply the three phases in order. -/
def SlugGenerator.GenerateSlug (gen : SlugGenerator) (in_ : GoStr) : GoStr :=
  gen.Finalizer (gen.Processor (gen.PreProcessor in_))

/-- `WithPreProcessor` from `slug.go`.  The source really does assign
`Processor: gen.PreProcessor` in the returned struct literal. -/
def WithPreProcessor (gen : SlugGenerator) (modifier : StringModifierFunc) :
    SlugGenerator where
  PreProcessor := ChainStringModifierFuncs [modifier, gen.PreProcessor]
  Processor := gen.PreProcessor
  Finalizer := gen.Finalizer

/-- `WithProcessor` from `slug.go`. -/
def WithProcessor (gen : SlugGenerator) (modifier : StringModifierFunc) :
    SlugGenerator where
  PreProcessor := gen.PreProcessor
  Processor := ChainStringModifierFuncs [modifier, gen.Processor]
  Finalizer := gen.Finalizer

/-- `WithFinalizer` from `slug.go`. -/
def WithFinalizer (gen : SlugGenerator) (modifier : StringModifierFunc) :
    SlugGenerator where
  PreProcessor := gen.PreProcessor
  Processor := gen.Processor
  Finalizer := ChainStringModifierFuncs [modifier, gen.Finalizer]

/-- A generator with three distinguishable stages, used to exhibit the
`WithPreProcessor` stage-frame violation. -/
def frameGen : SlugGenerator where
  PreProcessor := fun s => 'a' :: s
  Processor := fun s => 'b' :: s
  Finalizer := fun s => 'c' :: s

/-- **C1** — evaluation at a failing input: deriving from `frameGen` with
the identity modifier via `WithPreProcessor` yields a generator whose
`Processor` stage behaves like the original `PreProcessor` (it outputs
`"a"` on the empty string where the original `Processor` outputs `"b"`),
so the Processor stage is *not* left unchanged; the prepending on the
named stage and the Finalizer frame do hold. -/
theorem C1_withPreProcessor_frame_violation :
    (WithPreProcessor frameGen id).Processor [] = str "a"
    ∧ frameGen.Processor [] = str "b"
    ∧ (WithPreProcessor frameGen id).Processor [] ≠ frameGen.Processor []
    ∧ (WithPreProcessor frameGen id).PreProcessor [] = frameGen.PreProcessor (id [])
    ∧ (WithPreProcessor frameGen id).Finalizer [] = frameGen.Finalizer [] := by
  refine ⟨rfl, rfl, ?_, rfl, rfl⟩
  decide

/-!
## The external Unicode service

Modelled from the spec: §1 declares Unicode normalization and category
classification an external black-box service ("normalize(form, string) ->
string", "isSpace(rune) -> bool", "isHyphenOrDash(rune) -> bool"), and the
`strings.ToLower` case folding is likewise standard-library code outside
this repository.  The pipeline is parameterized by such a service.
-/

/-- Modelled from the spec (§1, §6): the external Unicode black-box
service consumed by the library — normalization, normal-form testing,
white-space and dash/hyphen classification, and case folding. -/
structure UnicodeService where
  normalize : Nat → GoStr → GoStr
  isNormalString : Nat → GoStr → Bool
  isSpace : Char → Bool
  isDashOrHyphen : Char → Bool
  toLowerFull : GoStr → GoStr

/-- `norm.NFC` of the `golang.org/x/text/unicode/norm` enumeration. -/
def normNFC : Nat := 0

/-- `norm.NFD`. -/
def normNFD : Nat := 1

/-- `norm.NFKC` (the library default). -/
def normNFKC : Nat := 2

/-- `norm.NFKD`. -/
def normNFKD : Nat := 3

/-- The `switch form { case norm.NFC, norm.NFD, norm.NFKC, norm.NFKD: }`
test used in `slug.go`. -/
def isRecognizedForm (form : Nat) : Bool :=
  form == normNFC || form == normNFD || form == normNFKC || form == normNFKD

/-- `IgnoreInvalidUTF8` from `slug.go`.  `strings.ToValidUTF8(s, "")` is
the identity on every valid string, and a `GoStr` (a list of Unicode code
points) is always valid, so at the code-point level this is the identity. -/
def IgnoreInvalidUTF8 : StringModifierFunc := fun in_ => in_

/-- `UTF8Normalizer.Modify` from `slug.go`: normalize for the four
recognized forms, identity otherwise. -/
def UTF8NormalizerModify (U : UnicodeService) (form : Nat) : StringModifierFunc :=
  fun in_ => if isRecognizedForm form then U.normalize form in_ else in_

/-- `isValidSlugRuneLowerCase` from `slug.go`. -/
def isValidSlugRuneLowerCase (r : Char) : Bool :=
  ('a' ≤ r && r ≤ 'z') || ('0' ≤ r && r ≤ '9') || r == '-' || r == '_'

/-- `isValidSlugRuneIgnoreCase` from `slug.go`. -/
def isValidSlugRuneIgnoreCase (r : Char) : Bool :=
  ('A' ≤ r && r ≤ 'Z') || ('a' ≤ r && r ≤ 'z') || ('0' ≤ r && r ≤ '9')
    || r == '-' || r == '_'

/-- `ValidSlugRuneReplaceFunc` from `slug.go`: keep the default slug code
points unchanged. -/
def ValidSlugRuneReplaceFunc : RuneHandleFunc := fun r =>
  if isValidSlugRuneIgnoreCase r then (true, [r]) else (false, [])

/-- `NewSpaceReplacerFunc` from `slug.go`. -/
def NewSpaceReplacerFunc (U : UnicodeService) (replaceBy : GoStr) : RuneHandleFunc :=
  fun r => if U.isSpace r then (true, replaceBy) else (false, [])

/-- `ReplaceDashAndHyphens` from `slug.go`. -/
def ReplaceDashAndHyphens (U : UnicodeService) : RuneHandleFunc :=
  fun r => if U.isDashOrHyphen r then (true, str "-") else (false, [])

/-- `NewTrimFunc` from `slug.go`: remove all leading and trailing code
points belonging to the cut-set (`strings.Trim`). -/
def NewTrimFunc (cutset : GoStr) : StringModifierFunc :=
  fun in_ =>
    ((in_.dropWhile (fun c => cutset.contains c)).reverse.dropWhile
      (fun c => cutset.contains c)).reverse

/-- Modelled from the spec (§4.3 literal multi-replace, `strings.Replacer`
is standard-library code): a single left-to-right scan; at each position
the first key (in argument order) matching there is replaced by its value
and the scan continues after the match; replacement text is never
re-scanned.  Structural fuel (the input length suffices, since every step
consumes at least one code point) keeps the definition kernel-computable. -/
def replacerFuel (pairs : List (GoStr × GoStr)) : Nat → GoStr → GoStr
  | 0, s => s
  | fuel + 1, s =>
      match s with
      | [] => []
      | x :: rest =>
          match pairs.find? (fun p => !p.1.isEmpty && p.1.isPrefixOf (x :: rest)) with
          | some p => p.2 ++ replacerFuel pairs fuel ((x :: rest).drop p.1.length)
          | none => x :: replacerFuel pairs fuel rest

/-- `ConstantReplacer.Modify` built from a merged replacement map
(`NewConstantReplacerFromMap` + `strings.Replacer`). -/
def ConstantReplacerModify (pairs : List (GoStr × GoStr)) : StringModifierFunc :=
  fun in_ => replacerFuel pairs in_.length in_

/-!
## Configuration (`slug.go`: `SlugConfig`, `GetPhases`, `Configure`,
`GetValidator`)
-/

/-- `SlugConfig` from `slug.go`. -/
structure SlugConfig where
  TruncateLength : Int
  WordSeparator : Char
  Form : Nat
  ReplaceMaps : List StringReplaceMap
  ToLower : Bool

/-- `NewSlugConfig` from `slug.go`: the default configuration. -/
def NewSlugConfig : SlugConfig where
  TruncateLength := -1
  WordSeparator := '-'
  Form := normNFKC
  ReplaceMaps := []
  ToLower := true

/-- `getDefaultPreProcessorsWithForm` from `slug.go`. -/
def getDefaultPreProcessorsWithForm (U : UnicodeService) (form : Nat)
    (toLower : Bool) : List StringModifierFunc :=
  [IgnoreInvalidUTF8]
    ++ (if isRecognizedForm form then [UTF8NormalizerModify U form] else [])
    ++ (if toLower then [U.toLowerFull] else [])

/-- The rune-rule chain built in `getDefaultProcessorsWithConfig`. -/
def defaultRuneChain (U : UnicodeService) (replaceBy : GoStr) : RuneHandleFunc :=
  ChainRuneHandleFuncs
    [NewSpaceReplacerFunc U replaceBy, ReplaceDashAndHyphens U,
     TranslateUmlaut, ValidSlugRuneReplaceFunc]

/-- `getDefaultProcessorsWithConfig` from `slug.go`. -/
def getDefaultProcessorsWithConfig (U : UnicodeService) (replaceBy : GoStr)
    (firstActions : List StringModifierFunc) : List StringModifierFunc :=
  firstActions ++ [RuneHandleFuncToStringModifierFunc (defaultRuneChain U replaceBy)]

/-- `getDefaultFinalizersWithConfig` from `slug.go`. -/
def getDefaultFinalizersWithConfig (replaceBy : Char) (truncateLength : Int) :
    List StringModifierFunc :=
  [NewReplaceMultiOccurrencesFunc replaceBy, NewTrimFunc [replaceBy]]
    ++ (if 0 ≤ truncateLength then [NewTruncateFunc truncateLength [replaceBy]] else [])

/-- `SlugConfig.GetPhases` from `slug.go`. -/
def SlugConfig.GetPhases (config : SlugConfig) (U : UnicodeService) :
    List StringModifierFunc × List StringModifierFunc × List StringModifierFunc :=
  let pre := getDefaultPreProcessorsWithForm U config.Form config.ToLower
  let replaceMap := MergeStringReplaceMaps config.ReplaceMaps
  let processors :=
    if 0 < replaceMap.length then
      getDefaultProcessorsWithConfig U [config.WordSeparator]
        [ConstantReplacerModify replaceMap]
    else
      getDefaultProcessorsWithConfig U [config.WordSeparator] []
  (pre, processors, getDefaultFinalizersWithConfig config.WordSeparator config.TruncateLength)

/-- `SlugConfig.Configure` from `slug.go`. -/
def SlugConfig.Configure (config : SlugConfig) (U : UnicodeService) : SlugGenerator where
  PreProcessor := ChainStringModifierFuncs (config.GetPhases U).1
  Processor := ChainStringModifierFuncs (config.GetPhases U).2.1
  Finalizer := ChainStringModifierFuncs (config.GetPhases U).2.2

/-- The rune-validity test the validator applies, depending on the
case-folding flag. -/
def slugRuneOK (toLower : Bool) (r : Char) : Bool :=
  if toLower then isValidSlugRuneLowerCase r else isValidSlugRuneIgnoreCase r

/-- The per-rune loop of `GetValidator`: checks rune validity and rejects
two consecutive separators (`isLastSep` is the flag of the Go code). -/
def validatorLoop (P : Char → Bool) (sep : Char) : Bool → GoStr → Bool
  | _, [] => true
  | isLastSep, r :: rest =>
      if !(P r) then false
      else if r = sep then
        (if isLastSep then false else validatorLoop P sep true rest)
      else validatorLoop P sep false rest

/-- `SlugConfig.GetValidator` from `slug.go`.  The leading
`utf8.ValidString` test is omitted: every `GoStr` is a valid code-point
sequence, so that test is constantly true in this model. -/
def SlugConfig.GetValidator (config : SlugConfig) (U : UnicodeService) :
    GoStr → Bool :=
  fun s =>
    if 0 < config.TruncateLength ∧ config.TruncateLength < (s.length : Int) then false
    else if isRecognizedForm config.Form ∧ ¬ (U.isNormalString config.Form s = true) then false
    else if [config.WordSeparator].isPrefixOf s || [config.WordSeparator].isSuffixOf s then false
    else validatorLoop (slugRuneOK config.ToLower) config.WordSeparator false s

/-- The package-level default configuration (`defaultConfig` in `slug.go`). -/
def defaultConfig : SlugConfig := NewSlugConfig

/-- The package-level `GenerateSlug` function from `slug.go`. -/
def GenerateSlug (U : UnicodeService) (in_ : GoStr) : GoStr :=
  (defaultConfig.Configure U).GenerateSlug in_

/-- `Char.toNat`-shifting ASCII upper-to-lower conversion plus the German
upper-case umlauts, matching `strings.ToLower` on every code point the
concrete theorems below exercise. -/
def lowerChar (c : Char) : Char :=
  if 'A' ≤ c ∧ c ≤ 'Z' then Char.ofNat (c.toNat + 32)
  else if c = 'Ö' then 'ö'
  else if c = 'Ä' then 'ä'
  else if c = 'Ü' then 'ü'
  else if c = 'ẞ' then 'ß'
  else c

/-- Modelled from the spec: a concrete instance of the external Unicode
service, faithful to the real one on the inputs of the concrete theorems
below — all four normal forms are the identity on ASCII text and report it
normal; Latin-1 white space; the ASCII hyphen and the em dash as dashes;
ASCII/umlaut case folding. -/
def asciiService : UnicodeService where
  normalize := fun _ s => s
  isNormalString := fun _ _ => true
  isSpace := fun c =>
    c == ' ' || c == '\t' || c == '\n' || c == '\x0b' || c == '\x0c' || c == '\r'
  isDashOrHyphen := fun c => c == '-' || c == '—'
  toLowerFull := fun s => s.map lowerChar

/-- **C8** — The default slug generator applied to
`"Hello World!! Isn't this amazing?"` produces exactly
`"hello-world-isnt-this-amazing"`. -/
theorem C8_default_end_to_end :
    GenerateSlug asciiService (str "Hello World!! Isn't this amazing?")
      = str "hello-world-isnt-this-amazing" := by
  decide

/-- **C10** — For every Unicode service that reports the empty string as
normal and every `SlugConfig`, the validator returned by `GetValidator`
accepts the empty string. -/
theorem C10_validator_accepts_empty (U : UnicodeService) (config : SlugConfig)
    (hnorm : U.isNormalString config.Form [] = true) :
    config.GetValidator U [] = true := by
  have h1 : ¬ (0 < config.TruncateLength ∧ config.TruncateLength < ((List.length ([] : GoStr)) : Int)) := by
    simp; omega
  have h2 : ¬ (isRecognizedForm config.Form ∧ ¬ (U.isNormalString config.Form [] = true)) := by
    simp [hnorm]
  have h3 : ([config.WordSeparator].isPrefixOf ([] : GoStr)
      || [config.WordSeparator].isSuffixOf ([] : GoStr)) = false := by
    simp [List.isPrefixOf, List.isSuffixOf]
  simp only [SlugConfig.GetValidator, h1, if_false, h2, h3, Bool.false_eq_true,
    validatorLoop]

/-- Witness for C10 at the concrete ASCII service and default config. -/
theorem C10_validator_accepts_empty_witness :
    NewSlugConfig.GetValidator asciiService [] = true :=
  C10_validator_accepts_empty asciiService NewSlugConfig rfl

/-- The configuration of the C2 counterexample: the default configuration
plus the single replacement map `{"a": "B"}` (a perfectly valid config). -/
def c2BugConfig : SlugConfig :=
  { NewSlugConfig with ReplaceMaps := [[(str "a", str "B")]] }

/-- **C2 counterexample** — the claim fails as stated: with the valid
config `{defaults, ReplaceMaps = [{"a": "B"}]}`, the generator maps
`"a"` to `"B"` (case folding runs *before* the literal replacement, so the
upper-case replacement value survives the processing phase), but the
validator derived from the same config rejects `"B"` because with
`ToLower` set it requires lower-case runes only. -/
theorem C2_validator_rejects_counterexample :
    (c2BugConfig.Configure asciiService).GenerateSlug (str "a") = str "B"
    ∧ c2BugConfig.GetValidator asciiService
        ((c2BugConfig.Configure asciiService).GenerateSlug (str "a")) = false := by
  constructor
  · decide
  · decide

/-!
## Towards the amended C2: invariants of the pipeline output
-/

/-- "No two consecutive separators" as a chain relation. -/
def sepRel (c : Char) : Char → Char → Prop := fun a b => ¬ (a = c ∧ b = c)

/-- What `strings.ToLower` guarantees of every output code point: it is not
an ASCII capital letter and not one of the upper-case code points the
umlaut table maps to an upper-case digraph. -/
def lowerSafe (d : Char) : Bool :=
  !('A' ≤ d && d ≤ 'Z') && !(d == 'Ö' || d == 'Ä' || d == 'Ü' || d == 'ẞ')

theorem ignoreCase_eq_or (r : Char) :
    isValidSlugRuneIgnoreCase r
      = (('A' ≤ r && r ≤ 'Z') || isValidSlugRuneLowerCase r) := by
  simp [isValidSlugRuneIgnoreCase, isValidSlugRuneLowerCase, Bool.or_assoc]

theorem slugRuneOK_imp_ignore (tl : Bool) (r : Char)
    (h : slugRuneOK tl r = true) : isValidSlugRuneIgnoreCase r = true := by
  cases tl with
  | false => exact h
  | true =>
    rw [ignoreCase_eq_or]
    have : isValidSlugRuneLowerCase r = true := h
    simp [this]

theorem lower_of_ignore_lowerSafe (r : Char)
    (hsafe : lowerSafe r = true) (hign : isValidSlugRuneIgnoreCase r = true) :
    isValidSlugRuneLowerCase r = true := by
  rw [ignoreCase_eq_or] at hign
  simp only [lowerSafe, Bool.and_eq_true, Bool.not_eq_true'] at hsafe
  rcases Bool.or_eq_true_iff.mp hign with h | h
  · rw [hsafe.1] at h; exact absurd h (by simp)
  · exact h

theorem mem_runesApply (h : RuneHandleFunc) :
    ∀ (s : GoStr) (d : Char), d ∈ runesApply h s →
      ∃ c ∈ s, d ∈ (if (h c).1 then (h c).2 else []) := by
  intro s
  induction s with
  | nil => intro d hd; simp [runesApply] at hd
  | cons x rest ih =>
    intro d hd
    rcases List.mem_append.mp hd with hx | hr
    · exact ⟨x, List.mem_cons_self x rest, hx⟩
    · obtain ⟨c, hc, hdc⟩ := ih d hr
      exact ⟨c, List.mem_cons_of_mem x hc, hdc⟩

theorem chainOut_ok (U : UnicodeService) (sep : Char) (tl : Bool)
    (hsep : slugRuneOK tl sep = true) (c : Char)
    (hc : tl = true → lowerSafe c = true) :
    ∀ d ∈ (if (defaultRuneChain U [sep] c).1 then (defaultRuneChain U [sep] c).2 else []),
      slugRuneOK tl d = true := by
  intro d hd
  by_cases h1 : U.isSpace c = true
  · simp [defaultRuneChain, ChainRuneHandleFuncs, NewSpaceReplacerFunc, h1] at hd
    subst hd; exact hsep
  · by_cases h2 : U.isDashOrHyphen c = true
    · simp [defaultRuneChain, ChainRuneHandleFuncs, NewSpaceReplacerFunc, h1,
        ReplaceDashAndHyphens, h2, str] at hd
      subst hd
      cases tl <;> decide
    · by_cases hu1 : c = 'Ö'
      · have := hc; subst hu1
        cases tl with
        | true => exact absurd (this rfl) (by decide)
        | false =>
          simp [defaultRuneChain, ChainRuneHandleFuncs, NewSpaceReplacerFunc, h1,
            ReplaceDashAndHyphens, h2, TranslateUmlaut, str] at hd
          rcases hd with rfl | rfl <;> decide
      · by_cases hu2 : c = 'ö'
        · subst hu2
          simp [defaultRuneChain, ChainRuneHandleFuncs, NewSpaceReplacerFunc, h1,
            ReplaceDashAndHyphens, h2, TranslateUmlaut, str] at hd
          rcases hd with rfl | rfl <;> cases tl <;> decide
        · by_cases hu3 : c = 'Ä'
          · have := hc; subst hu3
            cases tl with
            | true => exact absurd (this rfl) (by decide)
            | false =>
              simp [defaultRuneChain, ChainRuneHandleFuncs, NewSpaceReplacerFunc, h1,
                ReplaceDashAndHyphens, h2, TranslateUmlaut, str, hu1] at hd
              rcases hd with rfl | rfl <;> decide
          · by_cases hu4 : c = 'ä'
            · subst hu4
              simp [defaultRuneChain, ChainRuneHandleFuncs, NewSpaceReplacerFunc, h1,
                ReplaceDashAndHyphens, h2, TranslateUmlaut, str] at hd
              rcases hd with rfl | rfl <;> cases tl <;> decide
            · by_cases hu5 : c = 'Ü'
              · have := hc; subst hu5
                cases tl with
                | true => exact absurd (this rfl) (by decide)
                | false =>
                  simp [defaultRuneChain, ChainRuneHandleFuncs, NewSpaceReplacerFunc, h1,
                    ReplaceDashAndHyphens, h2, TranslateUmlaut, str, hu1, hu3] at hd
                  rcases hd with rfl | rfl <;> decide
              · by_cases hu6 : c = 'ü'
                · subst hu6
                  simp [defaultRuneChain, ChainRuneHandleFuncs, NewSpaceReplacerFunc, h1,
                    ReplaceDashAndHyphens, h2, TranslateUmlaut, str] at hd
                  rcases hd with rfl | rfl <;> cases tl <;> decide
                · by_cases hu7 : c = 'ß'
                  · subst hu7
                    simp [defaultRuneChain, ChainRuneHandleFuncs, NewSpaceReplacerFunc, h1,
                      ReplaceDashAndHyphens, h2, TranslateUmlaut, str] at hd
                    rcases hd with rfl | rfl <;> cases tl <;> decide
                  · by_cases hu8 : c = 'ẞ'
                    · have := hc; subst hu8
                      cases tl with
                      | true => exact absurd (this rfl) (by decide)
                      | false =>
                        simp [defaultRuneChain, ChainRuneHandleFuncs, NewSpaceReplacerFunc,
                          h1, ReplaceDashAndHyphens, h2, TranslateUmlaut, str,
                          hu1, hu3, hu5, hu7] at hd
                        rcases hd with rfl | rfl <;> decide
                    · by_cases hv : isValidSlugRuneIgnoreCase c = true
                      · simp [defaultRuneChain, ChainRuneHandleFuncs, NewSpaceReplacerFunc,
                          h1, ReplaceDashAndHyphens, h2, TranslateUmlaut, str,
                          hu1, hu2, hu3, hu4, hu5, hu6, hu7, hu8,
                          ValidSlugRuneReplaceFunc, hv] at hd
                        subst hd
                        cases tl with
                        | false => exact hv
                        | true => exact lower_of_ignore_lowerSafe d (hc rfl) hv
                      · simp [defaultRuneChain, ChainRuneHandleFuncs, NewSpaceReplacerFunc,
                          h1, ReplaceDashAndHyphens, h2, TranslateUmlaut, str,
                          hu1, hu2, hu3, hu4, hu5, hu6, hu7, hu8,
                          ValidSlugRuneReplaceFunc, hv] at hd

theorem rmoLoop_subset (c : Char) :
    ∀ (s : GoStr) (b : Bool) (d : Char), d ∈ rmoLoop c b s → d ∈ s := by
  intro s
  induction s with
  | nil => intro b d hd; simp [rmoLoop] at hd
  | cons r rest ih =>
    intro b d hd
    by_cases hr : r = c
    · subst hr
      cases b with
      | true =>
        simp only [rmoLoop, if_pos rfl, if_pos rfl] at hd
        exact List.mem_cons_of_mem r (ih true d hd)
      | false =>
        simp only [rmoLoop, if_pos rfl] at hd
        rcases List.mem_cons.mp hd with rfl | hd'
        · exact List.mem_cons_self d rest
        · exact List.mem_cons_of_mem r (ih true d hd')
    · simp only [rmoLoop, if_neg hr] at hd
      rcases List.mem_cons.mp hd with rfl | hd'
      · exact List.mem_cons_self d rest
      · exact List.mem_cons_of_mem r (ih false d hd')

theorem rmoLoop_cons_sep_true (c : Char) (rest : GoStr) :
    rmoLoop c true (c :: rest) = rmoLoop c true rest := by
  simp [rmoLoop]

theorem rmoLoop_cons_sep_false (c : Char) (rest : GoStr) :
    rmoLoop c false (c :: rest) = c :: rmoLoop c true rest := by
  simp [rmoLoop]

theorem rmoLoop_cons_ne (c r : Char) (b : Bool) (rest : GoStr) (h : r ≠ c) :
    rmoLoop c b (r :: rest) = r :: rmoLoop c false rest := by
  simp [rmoLoop, h]

theorem rmoLoop_chain (c : Char) :
    ∀ (s : GoStr) (b : Bool),
      List.Chain' (sepRel c) (rmoLoop c b s)
      ∧ (b = true → ∀ h ∈ (rmoLoop c b s).head?, h ≠ c) := by
  intro s
  induction s with
  | nil =>
    intro b
    refine ⟨List.chain'_nil, ?_⟩
    intro _ h hh
    simp [rmoLoop] at hh
  | cons r rest ih =>
    intro b
    by_cases hr : r = c
    · subst hr
      cases b with
      | true => simpa [rmoLoop_cons_sep_true] using ih true
      | false =>
        rw [rmoLoop_cons_sep_false]
        constructor
        · rw [List.chain'_cons']
          refine ⟨?_, (ih true).1⟩
          intro y hy
          exact fun hcc => (ih true).2 rfl y hy hcc.2
        · intro hb; simp at hb
    · rw [rmoLoop_cons_ne c r b rest hr]
      constructor
      · rw [List.chain'_cons']
        exact ⟨fun y _ => fun hcc => hr hcc.1, (ih false).1⟩
      · intro _ h hh
        rw [List.head?_cons, Option.mem_some_iff] at hh
        subst hh; exact hr

theorem dropWhile_head_not (p : Char → Bool) :
    ∀ (s : GoStr), ∀ h ∈ (s.dropWhile p).head?, p h = false := by
  intro s
  induction s with
  | nil => intro h hh; simp [List.dropWhile] at hh
  | cons x xs ih =>
    intro h hh
    by_cases hx : p x = true
    · rw [List.dropWhile_cons, if_pos hx] at hh
      exact ih h hh
    · rw [List.dropWhile_cons, if_neg hx, List.head?_cons] at hh
      rw [Option.mem_some_iff] at hh
      subst hh
      exact Bool.not_eq_true _ ▸ (by simpa using hx)

theorem prefix_head? {l₁ l₂ : GoStr} (h : l₁ <+: l₂) :
    ∀ x ∈ l₁.head?, x ∈ l₂.head? := by
  obtain ⟨t, rfl⟩ := h
  intro x hx
  rw [List.head?_append]
  cases l₁ with
  | nil => simp at hx
  | cons a l => simpa using hx

theorem trim_props (cutset : GoStr) (s : GoStr) :
    NewTrimFunc cutset s <:+: s
    ∧ (∀ h ∈ (NewTrimFunc cutset s).head?, cutset.contains h = false)
    ∧ (∀ h ∈ (NewTrimFunc cutset s).getLast?, cutset.contains h = false) := by
  set p : Char → Bool := fun c => cutset.contains c with hp
  set t : GoStr := s.dropWhile p with ht
  set rev : GoStr := t.reverse.dropWhile p with hrev
  have hleft : NewTrimFunc cutset s = rev.reverse := rfl
  have hrpre : rev.reverse <+: t := by
    have h1 : rev <:+ t.reverse := List.dropWhile_suffix p
    have h2 : rev.reverse <+: t.reverse.reverse := by
      rw [List.reverse_prefix]
      exact h1
    simpa using h2
  have htsuf : t <:+ s := List.dropWhile_suffix p
  refine ⟨?_, ?_, ?_⟩
  · rw [hleft]
    exact hrpre.isInfix.trans htsuf.isInfix
  · intro h hh
    rw [hleft] at hh
    have := prefix_head? hrpre h hh
    exact dropWhile_head_not p s h this
  · intro h hh
    rw [hleft] at hh
    rw [List.getLast?_reverse] at hh
    exact dropWhile_head_not p t.reverse h hh

theorem singleton_isPrefixOf_iff (c : Char) (l : GoStr) :
    [c].isPrefixOf l = true ↔ l.head? = some c := by
  cases l with
  | nil => simp [List.isPrefixOf]
  | cons x xs =>
    simp [List.isPrefixOf]
    exact eq_comm

theorem breakOn_none_single (c : Char) :
    ∀ (s : GoStr), breakOn [c] s = none → c ∉ s := by
  intro s
  induction s with
  | nil => intro _; simp
  | cons x rest ih =>
    intro h
    simp only [breakOn] at h
    by_cases hp : ([c] : GoStr).isPrefixOf (x :: rest) = true
    · rw [if_pos hp] at h; cases h
    · rw [if_neg hp] at h
      have hrest : breakOn [c] rest = none := by
        cases hb : breakOn [c] rest with
        | none => rfl
        | some p => rw [hb] at h; simp at h
      have hx : x ≠ c := by
        intro hxc
        exact hp ((singleton_isPrefixOf_iff c _).mpr (by simp [hxc]))
      intro hmem
      rcases List.mem_cons.mp hmem with hcx | hmem'
      · exact hx hcx.symm
      · exact ih hrest hmem'

theorem breakOn_some_single (c : Char) :
    ∀ (s a b : GoStr), breakOn [c] s = some (a, b) → c ∉ a := by
  intro s
  induction s with
  | nil => intro a b h; simp [breakOn] at h
  | cons x rest ih =>
    intro a b h
    simp only [breakOn] at h
    by_cases hp : ([c] : GoStr).isPrefixOf (x :: rest) = true
    · rw [if_pos hp] at h
      simp at h
      rw [h.1]
      simp
    · rw [if_neg hp] at h
      cases hb : breakOn [c] rest with
      | none => rw [hb] at h; simp at h
      | some p =>
        rw [hb] at h; simp at h
        have hx : x ≠ c := by
          intro hxc
          exact hp ((singleton_isPrefixOf_iff c _).mpr (by simp [hxc]))
        rw [← h.1]
        intro hmem
        rcases List.mem_cons.mp hmem with hcx | hmem'
        · exact hx hcx.symm
        · exact ih p.1 p.2 (by rw [hb]) hmem'

theorem splitGo_single_facts (c : Char) (s : GoStr) :
    ∀ w ∈ splitGo [c] s, c ∉ w ∧ w.Sublist s := by
  suffices H : ∀ (n : Nat) (s : GoStr), s.length ≤ n →
      ∀ w ∈ splitGo [c] s, c ∉ w ∧ w.Sublist s from H s.length s le_rfl
  intro n
  induction n with
  | zero =>
    intro s hs w hw
    have hsnil : s = [] := List.length_eq_zero.mp (Nat.le_zero.mp hs)
    subst hsnil
    rw [splitGo_of_breakOn_none [c] [] (by simp) (by simp [breakOn])] at hw
    simp at hw
    subst hw
    exact ⟨by simp, List.Sublist.refl []⟩
  | succ n ih =>
    intro s hs w hw
    rcases hb : breakOn [c] s with _ | ⟨a, b⟩
    · rw [splitGo_of_breakOn_none [c] s (by simp) hb] at hw
      simp at hw
      subst hw
      exact ⟨breakOn_none_single c _ hb, List.Sublist.refl _⟩
    · rw [splitGo_of_breakOn_some [c] s a b (by simp) hb] at hw
      have hd := breakOn_decomp [c] s a b hb
      rcases List.mem_cons.mp hw with rfl | hw'
      · refine ⟨breakOn_some_single c s w b hb, ?_⟩
        rw [hd, List.append_assoc]
        exact List.sublist_append_left w ([c] ++ b)
      · have hblen : b.length < s.length := breakOn_snd_lt [c] (by simp) s a b hb
        obtain ⟨h1, h2⟩ := ih b (by omega) w hw'
        refine ⟨h1, h2.trans ?_⟩
        rw [hd, List.append_assoc]
        exact (List.sublist_append_right [c] b).trans (List.sublist_append_right a ([c] ++ b))

theorem splitGo_single_nonempty (c : Char) (s : GoStr) (hsne : s ≠ [])
    (hhead : ∀ h ∈ s.head?, h ≠ c) (hlast : ∀ h ∈ s.getLast?, h ≠ c)
    (hchain : List.Chain' (sepRel c) s) :
    ∀ w ∈ splitGo [c] s, w ≠ [] := by
  suffices H : ∀ (n : Nat) (s : GoStr), s.length ≤ n → s ≠ [] →
      (∀ h ∈ s.head?, h ≠ c) → (∀ h ∈ s.getLast?, h ≠ c) →
      List.Chain' (sepRel c) s → ∀ w ∈ splitGo [c] s, w ≠ [] from
    H s.length s le_rfl hsne hhead hlast hchain
  intro n
  induction n with
  | zero =>
    intro s hs hsne _ _ _ w _
    exact absurd (List.length_eq_zero.mp (Nat.le_zero.mp hs)) hsne
  | succ n ih =>
    intro s hs hsne hhead hlast hchain w hw
    rcases hb : breakOn [c] s with _ | ⟨a, b⟩
    · rw [splitGo_of_breakOn_none [c] s (by simp) hb] at hw
      simp at hw
      subst hw
      exact hsne
    · rw [splitGo_of_breakOn_some [c] s a b (by simp) hb] at hw
      have hd := breakOn_decomp [c] s a b hb
      have hane : a ≠ [] := by
        intro hanil
        subst hanil
        simp at hd
        have : c ∈ s.head? := by rw [hd]; simp
        exact hhead c this rfl
      rcases List.mem_cons.mp hw with rfl | hw'
      · exact hane
      · have hbne : b ≠ [] := by
          intro hbnil
          subst hbnil
          have : s.getLast? = some c := by
            rw [hd]
            simp [List.getLast?_concat]
          exact hlast c (by rw [this]; rfl) rfl
        have hbhead : ∀ h ∈ b.head?, h ≠ c := by
          intro h hh hhc
          rcases b with _ | ⟨b0, b'⟩
          · exact absurd rfl hbne
          · simp at hh
            have hb0 : b0 = c := hh.trans hhc
            rw [hb0] at hd
            have hsuf : ([c] ++ (c :: b')) <:+ s := ⟨a, by rw [hd]; simp⟩
            have := hchain.suffix hsuf
            rw [List.cons_append, List.nil_append, List.chain'_cons] at this
            exact this.1 ⟨rfl, rfl⟩
        have hblast : ∀ h ∈ b.getLast?, h ≠ c := by
          intro h hh
          apply hlast h
          rw [hd, List.append_assoc, List.getLast?_append_of_ne_nil _ (by
            simp [hbne] : ([c] ++ b) ≠ []),
            List.getLast?_append_of_ne_nil _ hbne]
          exact hh
        have hbchain : List.Chain' (sepRel c) b :=
          hchain.suffix ⟨a ++ [c], by rw [hd]⟩
        have hblen : b.length < s.length := breakOn_snd_lt [c] (by simp) s a b hb
        exact ih b (by omega) hbne hbhead hblast hbchain w hw'

theorem chain'_of_not_mem (c : Char) :
    ∀ (l : GoStr), c ∉ l → List.Chain' (sepRel c) l := by
  intro l
  induction l with
  | nil => intro _; exact List.chain'_nil
  | cons x xs ih =>
    intro h
    rw [List.chain'_cons']
    refine ⟨?_, ih (fun hm => h (List.mem_cons_of_mem x hm))⟩
    intro y _ hcc
    exact h (by rw [← hcc.1]; exact List.mem_cons_self x xs)

theorem specAppendWords_props (n : Nat) (c : Char) (P : Char → Bool)
    (hPc : P c = true) :
    ∀ (ws : List GoStr) (len : Nat),
      (∀ w ∈ ws, w ≠ [] ∧ c ∉ w ∧ ∀ d ∈ w, P d = true) →
      (∀ d ∈ specAppendWords n [c] ws len, P d = true)
      ∧ List.Chain' (sepRel c) (specAppendWords n [c] ws len)
      ∧ (specAppendWords n [c] ws len = []
          ∨ (specAppendWords n [c] ws len).head? = some c)
      ∧ (∀ h ∈ (specAppendWords n [c] ws len).getLast?, h ≠ c) := by
  intro ws
  induction ws with
  | nil =>
    intro len _
    refine ⟨?_, List.chain'_nil, Or.inl rfl, ?_⟩
    · intro d hd; simp [specAppendWords] at hd
    · intro h hh; simp [specAppendWords] at hh
  | cons w ws ih =>
    intro len hws
    obtain ⟨hwne, hwc, hwP⟩ := hws w (List.mem_cons_self w ws)
    have hws' := fun w' hw' => hws w' (List.mem_cons_of_mem w hw')
    by_cases hfit : len + 1 + w.length ≤ n
    · have heq : specAppendWords n [c] (w :: ws) len
          = c :: (w ++ specAppendWords n [c] ws (len + 1 + w.length)) := by
        simp [specAppendWords, hfit]
      obtain ⟨ihP, ihChain, ihHead, ihLast⟩ := ih (len + 1 + w.length) hws'
      rw [heq]
      refine ⟨?_, ?_, Or.inr (by simp), ?_⟩
      · intro d hd
        rcases List.mem_cons.mp hd with rfl | hd'
        · exact hPc
        · rcases List.mem_append.mp hd' with hdw | hdX
          · exact hwP d hdw
          · exact ihP d hdX
      · rw [List.chain'_cons']
        constructor
        · intro y hy hcc
          have hyw : y ∈ w := by
            rcases w with _ | ⟨w0, w'⟩
            · exact absurd rfl hwne
            · simp at hy
              rw [← hy]
              exact List.mem_cons_self w0 w'
          exact hwc (by rw [← hcc.2]; exact hyw)
        · rw [List.chain'_append]
          refine ⟨chain'_of_not_mem c w hwc, ihChain, ?_⟩
          intro x hx y _ hcc
          exact hwc (by rw [← hcc.1]; exact List.mem_of_mem_getLast? hx)
      · intro h hh
        rcases ihHead with hXnil | hXhead
        · rw [hXnil] at hh
          have he : (c :: (w ++ ([] : GoStr))) = [c] ++ w := by simp
          rw [he, List.getLast?_append_of_ne_nil _ hwne] at hh
          exact fun hhc => hwc (by rw [← hhc]; exact List.mem_of_mem_getLast? hh)
        · have hXne : specAppendWords n [c] ws (len + 1 + w.length) ≠ [] := by
            intro he; rw [he] at hXhead; simp at hXhead
          have he : (c :: (w ++ specAppendWords n [c] ws (len + 1 + w.length))).getLast?
              = (specAppendWords n [c] ws (len + 1 + w.length)).getLast? := by
            rw [show (c :: (w ++ specAppendWords n [c] ws (len + 1 + w.length)))
                = (c :: w) ++ specAppendWords n [c] ws (len + 1 + w.length) by simp,
              List.getLast?_append_of_ne_nil _ hXne]
          rw [he] at hh
          exact ihLast h hh
    · have heq : specAppendWords n [c] (w :: ws) len = [] := by
        simp [specAppendWords, hfit]
      rw [heq]
      refine ⟨?_, List.chain'_nil, Or.inl rfl, ?_⟩
      · intro d hd; simp at hd
      · intro h hh; simp at hh

theorem truncateSpec_preserves (n : Nat) (c : Char) (P : Char → Bool)
    (hPc : P c = true) (s : GoStr)
    (hall : ∀ d ∈ s, P d = true) (hchain : List.Chain' (sepRel c) s)
    (hhead : ∀ h ∈ s.head?, h ≠ c) (hlast : ∀ h ∈ s.getLast?, h ≠ c) :
    (∀ d ∈ truncateSpec n [c] s, P d = true)
    ∧ List.Chain' (sepRel c) (truncateSpec n [c] s)
    ∧ (∀ h ∈ (truncateSpec n [c] s).head?, h ≠ c)
    ∧ (∀ h ∈ (truncateSpec n [c] s).getLast?, h ≠ c) := by
  by_cases hs : s = []
  · subst hs
    rw [truncateSpec_nil]
    exact ⟨by simp, List.chain'_nil, by simp, by simp⟩
  · obtain ⟨first, rest, hsplit⟩ : ∃ f r, splitGo [c] s = f :: r := by
      rcases h : splitGo [c] s with _ | ⟨f, r⟩
      · exact absurd h (splitGo_ne_nil [c] s hs)
      · exact ⟨f, r, rfl⟩
    have hfacts := splitGo_single_facts c s
    have hnonempty := splitGo_single_nonempty c s hs hhead hlast hchain
    rw [hsplit] at hfacts hnonempty
    have hfne : first ≠ [] := hnonempty first (List.mem_cons_self _ _)
    have hfc : c ∉ first := (hfacts first (List.mem_cons_self _ _)).1
    have hfsub := (hfacts first (List.mem_cons_self _ _)).2
    have hfP : ∀ d ∈ first, P d = true := fun d hd => hall d (hfsub.subset hd)
    have hts : truncateSpec n [c] s
        = if n ≤ first.length then first.take n
          else first ++ specAppendWords n [c] rest first.length := by
      rw [truncateSpec, hsplit]
    rw [hts]
    by_cases hn : n ≤ first.length
    · rw [if_pos hn]
      have htake : ∀ d ∈ first.take n, d ∈ first := fun d hd => List.take_subset n first hd
      refine ⟨fun d hd => hfP d (htake d hd),
        chain'_of_not_mem c _ (fun hin => hfc (htake c hin)), ?_, ?_⟩
      · intro h hh hhc
        exact hfc (by rw [← hhc]; exact htake h (List.mem_of_mem_head? hh))
      · intro h hh hhc
        exact hfc (by rw [← hhc]; exact htake h (List.mem_of_mem_getLast? hh))
    · rw [if_neg hn]
      have hrest : ∀ w ∈ rest, w ≠ [] ∧ c ∉ w ∧ ∀ d ∈ w, P d = true := by
        intro w hw
        exact ⟨hnonempty w (List.mem_cons_of_mem _ hw),
          (hfacts w (List.mem_cons_of_mem _ hw)).1,
          fun d hd => hall d ((hfacts w (List.mem_cons_of_mem _ hw)).2.subset hd)⟩
      obtain ⟨XP, Xchain, Xhead, Xlast⟩ :=
        specAppendWords_props n c P hPc rest first.length hrest
      refine ⟨?_, ?_, ?_, ?_⟩
      · intro d hd
        rcases List.mem_append.mp hd with hdf | hdX
        · exact hfP d hdf
        · exact XP d hdX
      · rw [List.chain'_append]
        refine ⟨chain'_of_not_mem c first hfc, Xchain, ?_⟩
        intro x hx y _ hcc
        exact hfc (by rw [← hcc.1]; exact List.mem_of_mem_getLast? hx)
      · intro h hh hhc
        rw [List.head?_append] at hh
        rcases first with _ | ⟨f0, f'⟩
        · exact absurd rfl hfne
        · simp at hh
          exact hfc (by rw [show f0 = c from hh.trans hhc]; exact List.mem_cons_self c f')
      · intro h hh hhc
        rcases Xhead with hXnil | hXhead
        · rw [hXnil, List.append_nil] at hh
          exact hfc (by rw [← hhc]; exact List.mem_of_mem_getLast? hh)
        · have hXne : specAppendWords n [c] rest first.length ≠ [] := by
            intro he; rw [he] at hXhead; simp at hXhead
          rw [List.getLast?_append_of_ne_nil _ hXne] at hh
          exact Xlast h hh hhc

theorem validatorLoop_true (P : Char → Bool) (c : Char) :
    ∀ (s : GoStr) (b : Bool), (∀ d ∈ s, P d = true) → List.Chain' (sepRel c) s →
      (b = true → ∀ h ∈ s.head?, h ≠ c) → validatorLoop P c b s = true := by
  intro s
  induction s with
  | nil => intro b _ _ _; rfl
  | cons r rest ih =>
    intro b hP hchain hb
    have hPr : P r = true := hP r (List.mem_cons_self r rest)
    simp only [validatorLoop, hPr, Bool.not_true, Bool.false_eq_true, if_false]
    by_cases hrc : r = c
    · rw [if_pos hrc]
      have hbf : b = false := by
        cases b with
        | false => rfl
        | true => exact absurd hrc (hb rfl r (by simp))
      rw [hbf, if_neg (by simp : ¬ (false = true))]
      apply ih true (fun d hd => hP d (List.mem_cons_of_mem r hd)) hchain.tail
      intro _ h hh hhc
      exact (List.chain'_cons'.mp hchain).1 h hh ⟨hrc, hhc⟩
    · rw [if_neg hrc]
      apply ih false (fun d hd => hP d (List.mem_cons_of_mem r hd)) hchain.tail
      intro hf
      exact absurd hf (by simp)

theorem singleton_isSuffixOf_iff (c : Char) (l : GoStr) :
    [c].isSuffixOf l = true ↔ l.getLast? = some c := by
  show ([c] : GoStr).reverse.isPrefixOf l.reverse = true ↔ _
  rw [show ([c] : GoStr).reverse = [c] from rfl, singleton_isPrefixOf_iff,
    List.head?_reverse]

theorem contains_singleton_iff (c h : Char) :
    (([c] : GoStr).contains h) = true ↔ h = c := by
  simp

/-- For a configuration with no effective replacement map, the generated
slug is: pre-process, then the rune chain, then collapse, trim and (when a
non-negative truncate length is configured) truncate. -/
theorem generate_decompose (U : UnicodeService) (config : SlugConfig)
    (hmerged : MergeStringReplaceMaps config.ReplaceMaps = []) (s : GoStr) :
    (config.Configure U).GenerateSlug s
      = (if 0 ≤ config.TruncateLength then
          NewTruncateFunc config.TruncateLength [config.WordSeparator]
            (NewTrimFunc [config.WordSeparator]
              (NewReplaceMultiOccurrencesFunc config.WordSeparator
                (runesApply (defaultRuneChain U [config.WordSeparator])
                  (ChainStringModifierFuncs
                    (getDefaultPreProcessorsWithForm U config.Form config.ToLower) s))))
        else
          NewTrimFunc [config.WordSeparator]
            (NewReplaceMultiOccurrencesFunc config.WordSeparator
              (runesApply (defaultRuneChain U [config.WordSeparator])
                (ChainStringModifierFuncs
                  (getDefaultPreProcessorsWithForm U config.Form config.ToLower) s)))) := by
  by_cases htr : 0 ≤ config.TruncateLength
  · simp [SlugGenerator.GenerateSlug, SlugConfig.Configure, SlugConfig.GetPhases,
      hmerged, getDefaultProcessorsWithConfig, getDefaultFinalizersWithConfig, htr,
      ChainStringModifierFuncs, RuneHandleFuncToStringModifierFunc]
  · simp [SlugGenerator.GenerateSlug, SlugConfig.Configure, SlugConfig.GetPhases,
      hmerged, getDefaultProcessorsWithConfig, getDefaultFinalizersWithConfig, htr,
      ChainStringModifierFuncs, RuneHandleFuncToStringModifierFunc]

theorem preProcess_lowerSafe (U : UnicodeService) (form : Nat) (s : GoStr)
    (hlower : ∀ (t : GoStr), ∀ d ∈ U.toLowerFull t, lowerSafe d = true) :
    ∀ d ∈ ChainStringModifierFuncs (getDefaultPreProcessorsWithForm U form true) s,
      lowerSafe d = true := by
  intro d hd
  rw [getDefaultPreProcessorsWithForm] at hd
  rw [show ((if true then [U.toLowerFull] else []) : List StringModifierFunc)
      = [U.toLowerFull] from rfl] at hd
  rw [show ChainStringModifierFuncs ([IgnoreInvalidUTF8]
        ++ (if isRecognizedForm form then [UTF8NormalizerModify U form] else [])
        ++ [U.toLowerFull]) s
      = U.toLowerFull (ChainStringModifierFuncs ([IgnoreInvalidUTF8]
        ++ (if isRecognizedForm form then [UTF8NormalizerModify U form] else [])) s) by
    simp [ChainStringModifierFuncs, List.foldl_append]] at hd
  exact hlower _ d hd

/-- **C2 (amended)** — For every Unicode service such that (i) case-folded
output never contains an ASCII capital letter nor an upper-case
umlaut/sharp-s, and (ii) strings of slug-legal runes are reported normal for
every form, and for every `SlugConfig` whose merged replacement map is
empty and whose word separator itself passes the configured slug-rune test:
the validator derived from the config accepts the output of the generator
compiled from the same config, on every input string. -/
theorem C2_validator_accepts_amended (U : UnicodeService) (config : SlugConfig)
    (hmerged : MergeStringReplaceMaps config.ReplaceMaps = [])
    (hsep : slugRuneOK config.ToLower config.WordSeparator = true)
    (hlower : config.ToLower = true →
      ∀ (t : GoStr), ∀ d ∈ U.toLowerFull t, lowerSafe d = true)
    (hnorm : ∀ (form : Nat) (t : GoStr),
      (∀ d ∈ t, isValidSlugRuneIgnoreCase d = true) → U.isNormalString form t = true)
    (s : GoStr) :
    config.GetValidator U ((config.Configure U).GenerateSlug s) = true := by
  rw [generate_decompose U config hmerged s]
  set c := config.WordSeparator with hcdef
  set s1 := ChainStringModifierFuncs
    (getDefaultPreProcessorsWithForm U config.Form config.ToLower) s with hs1def
  set s2 := runesApply (defaultRuneChain U [c]) s1 with hs2def
  set s3 := NewReplaceMultiOccurrencesFunc c s2 with hs3def
  set s4 := NewTrimFunc [c] s3 with hs4def
  -- rune-set facts for each stage
  have hs1safe : config.ToLower = true → ∀ d ∈ s1, lowerSafe d = true := by
    intro ht
    rw [hs1def, ht]
    exact preProcess_lowerSafe U config.Form s (hlower ht)
  have hP2 : ∀ d ∈ s2, slugRuneOK config.ToLower d = true := by
    intro d hd
    rw [hs2def] at hd
    obtain ⟨ch, hch, hdch⟩ := mem_runesApply _ s1 d hd
    exact chainOut_ok U c config.ToLower hsep ch (fun ht => hs1safe ht ch hch) d hdch
  have hP3 : ∀ d ∈ s3, slugRuneOK config.ToLower d = true := by
    intro d hd
    rw [hs3def] at hd
    exact hP2 d (rmoLoop_subset c s2 false d hd)
  have hchain3 : List.Chain' (sepRel c) s3 := by
    rw [hs3def]
    show List.Chain' (sepRel c) (rmoLoop c false s2)
    exact (rmoLoop_chain c s2 false).1
  have htrim := trim_props [c] s3
  have hP4 : ∀ d ∈ s4, slugRuneOK config.ToLower d = true := by
    intro d hd
    rw [hs4def] at hd
    exact hP3 d ((htrim.1.sublist).subset hd)
  have hchain4 : List.Chain' (sepRel c) s4 := by
    rw [hs4def]
    exact hchain3.infix htrim.1
  have hhead4 : ∀ h ∈ s4.head?, h ≠ c := by
    intro h hh
    rw [hs4def] at hh
    simpa using htrim.2.1 h hh
  have hlast4 : ∀ h ∈ s4.getLast?, h ≠ c := by
    intro h hh
    rw [hs4def] at hh
    simpa using htrim.2.2 h hh
  -- the final string and its facts
  by_cases htr : 0 ≤ config.TruncateLength
  · rw [if_pos htr]
    have hcast : config.TruncateLength = ((config.TruncateLength.toNat : Nat) : Int) :=
      (Int.toNat_of_nonneg htr).symm
    rw [hcast, trunc_eq_spec]
    obtain ⟨P5, chain5, head5, last5⟩ :=
      truncateSpec_preserves config.TruncateLength.toNat c
        (slugRuneOK config.ToLower) hsep s4 hP4 hchain4 hhead4 hlast4
    have hlen5 := truncateSpec_len config.TruncateLength.toNat [c] s4
    -- evaluate the validator
    rw [SlugConfig.GetValidator]
    rw [if_neg (by
      intro hcontra
      have h1 := hcontra.1
      have h2 := hcontra.2
      rw [hcast] at h2
      have : (List.length (truncateSpec config.TruncateLength.toNat [c] s4) : Int)
          ≤ ((config.TruncateLength.toNat : Nat) : Int) := by exact_mod_cast hlen5
      omega)]
    rw [if_neg (by
      intro hcontra
      exact hcontra.2 (hnorm config.Form _
        (fun d hd => slugRuneOK_imp_ignore config.ToLower d (P5 d hd))))]
    rw [if_neg (by
      intro hcontra
      rcases Bool.or_eq_true_iff.mp hcontra with hpre | hsuf
      · exact head5 c ((singleton_isPrefixOf_iff c _).mp hpre ▸ rfl) rfl
      · exact last5 c ((singleton_isSuffixOf_iff c _).mp hsuf ▸ rfl) rfl)]
    exact validatorLoop_true (slugRuneOK config.ToLower) c _ false P5 chain5
      (fun hf => absurd hf (by simp))
  · rw [if_neg htr]
    rw [SlugConfig.GetValidator]
    rw [if_neg (by intro hcontra; omega)]
    rw [if_neg (by
      intro hcontra
      exact hcontra.2 (hnorm config.Form _
        (fun d hd => slugRuneOK_imp_ignore config.ToLower d (hP4 d hd))))]
    rw [if_neg (by
      intro hcontra
      rcases Bool.or_eq_true_iff.mp hcontra with hpre | hsuf
      · exact hhead4 c ((singleton_isPrefixOf_iff c _).mp hpre ▸ rfl) rfl
      · exact hlast4 c ((singleton_isSuffixOf_iff c _).mp hsuf ▸ rfl) rfl)]
    exact validatorLoop_true (slugRuneOK config.ToLower) c _ false hP4 hchain4
      (fun hf => absurd hf (by simp))

/-- Witness for the amended C2: the default configuration with case folding
disabled, the concrete ASCII service, and the input `"A b"`. -/
theorem C2_validator_accepts_amended_witness :
    ({ NewSlugConfig with ToLower := false } : SlugConfig).GetValidator asciiService
      ((({ NewSlugConfig with ToLower := false } : SlugConfig).Configure
          asciiService).GenerateSlug (str "A b")) = true :=
  C2_validator_accepts_amended asciiService { NewSlugConfig with ToLower := false }
    rfl (by decide) (fun h => absurd h (by decide)) (fun _ _ _ => rfl) (str "A b")

end Goslugify
